import Mathlib

/-!
Verification of the isame-lb load balancer core against its specification.

The definitions below are shallow embeddings of the Go source:
* internal/balancer/balancer.go   (round robin, weighted round robin, least connections)
* internal/circuitbreaker         (CanAttempt, RecordFailure)
* internal/ratelimit              (RateLimiter.Allow)
* internal/retry/retry.go         (Retrier.Do, calculateBackoff)
* internal/health/checker.go      (Checker.updateBackendStatus)
* internal/proxy/proxy.go         (Handler.ServeHTTP error paths, writeError)

Go machine integers are modelled as unbounded Int/Nat (no state in the claims
under study can reach the 64-bit range in a real execution), Go float64
arithmetic in calculateBackoff is modelled over the rationals, time.Time as
an integer timestamp, and Go maps as total functions with the zero-value
default, which matches every map access pattern in the source.
-/

namespace IsameLB

/-- A backend as in internal/config: the URL is the identity key, plus a weight. -/
structure Backend where
  url : String
  weight : ℤ
deriving DecidableEq, Repr

/-- Map update: models a Go map assignment on a map viewed as a total function. -/
def updMap (f : String → ℤ) (k : String) (v : ℤ) : String → ℤ :=
  fun x => if x = k then v else f x

/-- Health filtering common to all three policies:
keep a backend when its health map entry is absent or true
(`if healthy, exists := healthStatus[backend.URL]; !exists || healthy`). -/
def healthyFilter (backends : List Backend) (healthStatus : String → Option Bool) :
    List Backend :=
  backends.filter (fun b => (healthStatus b.url).getD true)

/-- The selection scan of WeightedRoundRobin.SelectBackend:
`maxWeight := -1; for i, b { if weights[b.URL] > maxWeight { maxWeight, selected = .., i } }`,
run over the list of current weights in backend order. -/
def selectLoop : List ℤ → ℕ → ℤ × Option ℕ → ℤ × Option ℕ
  | [], _, acc => acc
  | v :: rest, i, acc =>
      selectLoop rest (i + 1) (if v > acc.1 then (v, some i) else acc)

/-! ## Health checker (internal/health/checker.go) -/

/-- The two threshold fields of HealthConfig used by updateBackendStatus. -/
structure HealthConfig where
  healthyThreshold : ℕ
  unhealthyThreshold : ℕ

/-- Per-backend health status: the fields of health.Status mutated by probes. -/
structure Status where
  healthy : Bool
  consecutiveSuccesses : ℕ
  consecutiveFailures : ℕ

/-- Initial status installed by Checker.Start: healthy, both counters zero. -/
def initialStatus : Status := ⟨true, 0, 0⟩

/-- Checker.updateBackendStatus: on a good probe increment successes and zero
failures, flipping to healthy at the threshold; symmetrically on a bad probe. -/
def updateBackendStatus (cfg : HealthConfig) (st : Status) (healthy : Bool) : Status :=
  if healthy then
    let cs := st.consecutiveSuccesses + 1
    ⟨if st.healthy = false ∧ cfg.healthyThreshold ≤ cs then true else st.healthy, cs, 0⟩
  else
    let cf := st.consecutiveFailures + 1
    ⟨if st.healthy = true ∧ cfg.unhealthyThreshold ≤ cf then false else st.healthy, 0, cf⟩

lemma updateBackendStatus_counter (cfg : HealthConfig) (st : Status) (h : Bool) :
    (updateBackendStatus cfg st h).consecutiveSuccesses = 0 ∨
      (updateBackendStatus cfg st h).consecutiveFailures = 0 := by
  cases h <;> simp [updateBackendStatus]

/-! ## Least connections counters (internal/balancer/balancer.go) -/

/-- An operation on the LeastConnections connection counters. -/
inductive ConnOp where
  | increment (url : String)
  | decrement (url : String)

/-- IncrementConnections / DecrementConnections: decrement is guarded by
`if lc.connections[backendURL] > 0`. -/
def applyConnOp (conns : String → ℤ) : ConnOp → (String → ℤ)
  | .increment u => updMap conns u (conns u + 1)
  | .decrement u => if conns u > 0 then updMap conns u (conns u - 1) else conns

/-- GetConnections: read of the counter map (zero default for absent keys). -/
def getConnections (conns : String → ℤ) (url : String) : ℤ := conns url

lemma applyConnOp_nonneg (conns : String → ℤ) (hc : ∀ u, 0 ≤ conns u) (op : ConnOp) :
    ∀ u, 0 ≤ applyConnOp conns op u := by
  intro u
  cases op with
  | increment v =>
      by_cases hu : u = v <;> simp [applyConnOp, updMap, hu] <;> linarith [hc u, hc v]
  | decrement v =>
      by_cases hpos : conns v > 0
      · by_cases hu : u = v
        · simp [applyConnOp, updMap, hu, hpos]; omega
        · simpa [applyConnOp, updMap, hu, hpos] using hc u
      · simpa [applyConnOp, hpos] using hc u

lemma foldl_applyConnOp_nonneg (ops : List ConnOp) :
    ∀ conns : String → ℤ, (∀ u, 0 ≤ conns u) →
      ∀ u, 0 ≤ (ops.foldl applyConnOp conns) u := by
  induction ops with
  | nil => intro conns hc u; simpa using hc u
  | cons op rest ih =>
      intro conns hc u
      exact ih (applyConnOp conns op) (applyConnOp_nonneg conns hc op) u

/-- Claim C8: from the initial status, any sequence of probe outcomes keeps at
least one of the two consecutive counters equal to zero. -/
theorem health_counters_exclusive (cfg : HealthConfig) (probes : List Bool) :
    (probes.foldl (updateBackendStatus cfg) initialStatus).consecutiveSuccesses = 0 ∨
      (probes.foldl (updateBackendStatus cfg) initialStatus).consecutiveFailures = 0 := by
  induction probes using List.reverseRecOn with
  | nil => simp [initialStatus]
  | append_singleton l p _ =>
      rw [List.foldl_append]
      simpa using updateBackendStatus_counter cfg _ p

/-- Claim C10: the per-backend active-connection count starts at zero, is
incremented by IncrementConnections, and DecrementConnections leaves a zero
count at zero, so after any operation sequence GetConnections is nonnegative. -/
theorem connections_nonneg (ops : List ConnOp) (url : String) :
    0 ≤ getConnections (ops.foldl applyConnOp (fun _ => 0)) url :=
  foldl_applyConnOp_nonneg ops (fun _ => 0) (fun _ => le_refl 0) url

/-! ## Circuit breaker (internal/circuitbreaker) -/

/-- The circuit breaker configuration fields used by CanAttempt/RecordFailure. -/
structure CircuitBreakerConfig where
  enabled : Bool
  failureThreshold : ℕ
  timeout : ℤ

/-- Per-backend breaker state; the two-valued state machine Closed/Open is
modelled by the flag isOpen (isOpen = true means StateOpen). -/
structure BreakerBackendState where
  isOpen : Bool
  consecutiveFailures : ℕ
  lastFailureTime : ℤ
deriving DecidableEq, Repr

/-- CircuitBreaker.CanAttempt at an instant now; an absent entry answers true.
An open entry past the timeout is reset to Closed with zero failures and the
call returns true; an open entry within the timeout answers false. -/
def canAttempt (cfg : CircuitBreakerConfig) (st : Option BreakerBackendState) (now : ℤ) :
    Bool × Option BreakerBackendState :=
  if cfg.enabled = false then (true, st)
  else
    match st with
    | none => (true, none)
    | some s =>
        if s.isOpen then
          if cfg.timeout ≤ now - s.lastFailureTime then
            (true, some ⟨false, 0, s.lastFailureTime⟩)
          else (false, some s)
        else (true, some s)

/-- CircuitBreaker.RecordFailure at an instant now: an absent entry is created
Closed with zero failures, the counter is incremented, the failure time is
recorded, and the state opens once the counter reaches the threshold. -/
def recordFailure (cfg : CircuitBreakerConfig) (st : Option BreakerBackendState) (now : ℤ) :
    Option BreakerBackendState :=
  if cfg.enabled = false then st
  else
    let s := st.getD ⟨false, 0, 0⟩
    let cf := s.consecutiveFailures + 1
    some ⟨if cfg.failureThreshold ≤ cf then true else s.isOpen, cf, now⟩

/-- A sequence of RecordFailure calls at the given instants. -/
def recordFailures (cfg : CircuitBreakerConfig) (st : Option BreakerBackendState)
    (ts : List ℤ) : Option BreakerBackendState :=
  ts.foldl (recordFailure cfg) st

lemma getLastD_irrel (l : List ℤ) (h : l ≠ []) (d₁ d₂ : ℤ) :
    l.getLastD d₁ = l.getLastD d₂ := by
  cases l with
  | nil => exact absurd rfl h
  | cons x rest =>
      have hs : (x :: rest).getLast?.isSome := by
        rw [List.getLast?_isSome]; simp
      obtain ⟨y, hy⟩ := Option.isSome_iff_exists.mp hs
      simp [List.getLastD, hy]

lemma canAttempt_open_eval (cfg : CircuitBreakerConfig) (he : cfg.enabled = true)
    (cf : ℕ) (lt : ℤ) (now : ℤ) :
    canAttempt cfg (some ⟨true, cf, lt⟩) now =
      if cfg.timeout ≤ now - lt then (true, some ⟨false, 0, lt⟩)
      else (false, some ⟨true, cf, lt⟩) := by
  simp [canAttempt, he]

lemma recordFailures_closed_form (cfg : CircuitBreakerConfig) (he : cfg.enabled = true)
    (ts : List ℤ) (hne : ts ≠ []) :
    ∀ s : BreakerBackendState,
      recordFailures cfg (some s) ts =
        some ⟨if cfg.failureThreshold ≤ s.consecutiveFailures + ts.length then true
                else s.isOpen,
              s.consecutiveFailures + ts.length, ts.getLastD 0⟩ := by
  induction ts with
  | nil => exact absurd rfl hne
  | cons t rest ih =>
      intro s
      rw [recordFailures, List.foldl_cons]
      have hstep : recordFailure cfg (some s) t =
          some ⟨if cfg.failureThreshold ≤ s.consecutiveFailures + 1 then true else s.isOpen,
                s.consecutiveFailures + 1, t⟩ := by
        simp [recordFailure, he]
      rw [hstep]
      cases rest with
      | nil => simp [recordFailures]
      | cons r₂ rest₂ =>
          have hr : (r₂ :: rest₂ : List ℤ) ≠ [] := by simp
          have h₂ := ih hr ⟨if cfg.failureThreshold ≤ s.consecutiveFailures + 1 then true
                              else s.isOpen, s.consecutiveFailures + 1, t⟩
          rw [recordFailures] at h₂
          rw [h₂]
          simp only [Option.some.injEq, BreakerBackendState.mk.injEq, List.length_cons]
          refine ⟨?_, by omega, ?_⟩
          · split_ifs <;> first | rfl | omega
          · show (r₂ :: rest₂).getLastD 0 = (r₂ :: rest₂).getLastD t
            exact getLastD_irrel (r₂ :: rest₂) hr 0 t

/-- Claim C2: with the breaker enabled, failure_threshold consecutive
RecordFailure calls starting from the absent (Closed, 0) entry leave the state
Open with the last failure time recorded; CanAttempt answers false while
now - last_failure_time < timeout and leaves the state untouched, and a call
with now - last_failure_time >= timeout answers true and resets the entry to
Closed with zero consecutive failures. -/
theorem breaker_open_and_recover (cfg : CircuitBreakerConfig) (ts : List ℤ)
    (he : cfg.enabled = true) (hth : 1 ≤ cfg.failureThreshold)
    (hlen : ts.length = cfg.failureThreshold) :
    ∃ s : BreakerBackendState,
      recordFailures cfg none ts = some s ∧
      s.isOpen = true ∧
      s.consecutiveFailures = cfg.failureThreshold ∧
      s.lastFailureTime = ts.getLastD 0 ∧
      (∀ now : ℤ, now - s.lastFailureTime < cfg.timeout →
        canAttempt cfg (some s) now = (false, some s)) ∧
      (∀ now : ℤ, cfg.timeout ≤ now - s.lastFailureTime →
        canAttempt cfg (some s) now = (true, some ⟨false, 0, s.lastFailureTime⟩)) := by
  have hne : ts ≠ [] := by
    intro h
    rw [h] at hlen
    simp at hlen
    omega
  obtain ⟨t, rest, hts⟩ := List.exists_cons_of_ne_nil hne
  have hfirst : recordFailure cfg none t =
      some ⟨if cfg.failureThreshold ≤ 1 then true else false, 1, t⟩ := by
    simp [recordFailure, he, Option.getD]
  refine ⟨⟨true, cfg.failureThreshold, ts.getLastD 0⟩, ?_, rfl, rfl, rfl, ?_, ?_⟩
  · subst hts
    rw [recordFailures, List.foldl_cons, hfirst]
    cases rest with
    | nil =>
        have h1 : cfg.failureThreshold = 1 := by
          simp at hlen
          omega
        simp [recordFailures, h1, List.getLastD]
    | cons r₂ rest₂ =>
        have hr : (r₂ :: rest₂ : List ℤ) ≠ [] := by simp
        have h₂ := recordFailures_closed_form cfg he (r₂ :: rest₂) hr
          ⟨if cfg.failureThreshold ≤ 1 then true else false, 1, t⟩
        rw [recordFailures] at h₂
        rw [h₂]
        have hlen₂ : 1 + (r₂ :: rest₂).length = cfg.failureThreshold := by
          simp at hlen ⊢
          omega
        simp only [Option.some.injEq, BreakerBackendState.mk.injEq]
        refine ⟨?_, by omega, ?_⟩
        · rw [if_pos (by omega)]
        · show (r₂ :: rest₂).getLastD 0 = (t :: r₂ :: rest₂).getLastD 0
          have : (t :: r₂ :: rest₂).getLastD 0 = (r₂ :: rest₂).getLastD t := by
            simp [List.getLastD, List.getLast?]
          rw [this]
          exact getLastD_irrel (r₂ :: rest₂) hr 0 t
  · intro now hnow
    simp only at hnow
    rw [canAttempt_open_eval cfg he, if_neg (by omega)]
  · intro now hnow
    simp only at hnow
    rw [canAttempt_open_eval cfg he, if_pos (by omega)]

/-- Witness for C2 at a concrete breaker: threshold 2, timeout 10, failures at
times 3 and 5; CanAttempt at 14 still refuses, CanAttempt at 15 recovers. -/
theorem breaker_open_and_recover_witness :
    (canAttempt ⟨true, 2, 10⟩ (recordFailures ⟨true, 2, 10⟩ none [3, 5]) 14).1 = false ∧
    (canAttempt ⟨true, 2, 10⟩ (recordFailures ⟨true, 2, 10⟩ none [3, 5]) 15).1 = true := by
  obtain ⟨s, hrec, _, _, hlast, hfalse, htrue⟩ :=
    breaker_open_and_recover ⟨true, 2, 10⟩ [3, 5] rfl (by decide) (by decide)
  have hl : s.lastFailureTime = 5 := by simpa using hlast
  rw [hl] at hfalse htrue
  rw [hrec]
  exact ⟨by rw [hfalse 14 (by decide)], by rw [htrue 15 (by decide)]⟩

/-! ## Rate limiter (internal/ratelimit) -/

/-- The rate limit configuration fields used by Allow. -/
structure RateLimitConfig where
  enabled : Bool
  requestsPerIP : ℕ
  windowSize : ℤ

/-- RateLimiter.Allow for one client record: drop timestamps not strictly
after now - window, refuse when the retained count has reached the limit,
otherwise append now and admit. -/
def allow (cfg : RateLimitConfig) (requests : List ℤ) (now : ℤ) : Bool × List ℤ :=
  if cfg.enabled = false then (true, requests)
  else
    let validRequests := requests.filter (fun t => now - cfg.windowSize < t)
    if cfg.requestsPerIP ≤ validRequests.length then (false, validRequests)
    else (true, validRequests ++ [now])

/-- Claim C3: with rate limiting enabled, Allow admits exactly when the number
of retained admitted timestamps strictly inside the window is below the limit,
appends now on admission, and a timestamp t is counted by a call at now
exactly when now < t + window (so it is counted on [t, t+window) and no
longer at t + window). -/
theorem allow_sliding_window (cfg : RateLimitConfig) (requests : List ℤ) (now : ℤ)
    (he : cfg.enabled = true) (hr : 0 < cfg.requestsPerIP) (hw : 0 < cfg.windowSize) :
    ((allow cfg requests now).1 = true ↔
      (requests.filter (fun t => now - cfg.windowSize < t)).length < cfg.requestsPerIP) ∧
    ((allow cfg requests now).1 = true →
      (allow cfg requests now).2 =
        requests.filter (fun t => now - cfg.windowSize < t) ++ [now]) ∧
    (∀ t : ℤ, t ≤ now → ((now - cfg.windowSize < t) ↔ now < t + cfg.windowSize)) := by
  have heval : allow cfg requests now =
      if cfg.requestsPerIP ≤ (requests.filter (fun t => now - cfg.windowSize < t)).length
      then (false, requests.filter (fun t => now - cfg.windowSize < t))
      else (true, requests.filter (fun t => now - cfg.windowSize < t) ++ [now]) := by
    simp [allow, he]
  refine ⟨?_, ?_, fun t _ => by omega⟩
  · rw [heval]
    split_ifs with hcount
    · simp
      omega
    · simp
      omega
  · intro htrue
    rw [heval] at htrue ⊢
    split_ifs at htrue ⊢
    rfl

/-- Witness for C3: limit 2, window 10, record [1, 4], call at time 12: the
timestamp 1 has left the window, 4 is still counted, and the call admits. -/
theorem allow_sliding_window_witness :
    (allow ⟨true, 2, 10⟩ [1, 4] 12).1 = true ∧
    (allow ⟨true, 2, 10⟩ [1, 4] 12).2 = [4, 12] := by
  obtain ⟨hiff, happ, _⟩ := allow_sliding_window ⟨true, 2, 10⟩ [1, 4] 12 rfl
    (by decide) (by decide)
  have h₁ : (allow ⟨true, 2, 10⟩ [1, 4] 12).1 = true := by
    rw [hiff]; decide
  refine ⟨h₁, ?_⟩
  rw [happ h₁]
  decide

/-! ## Retrier (internal/retry/retry.go) -/

/-- RetryConfig; the Go durations (int64 nanoseconds read as float64 inside
calculateBackoff) are modelled over the rationals. -/
structure RetryConfig where
  enabled : Bool
  maxAttempts : ℕ
  initialBackoff : ℚ
  maxBackoff : ℚ

/-- The effective attempt budget of Retrier.Do:
`maxAttempts := r.config.MaxAttempts; if !r.config.Enabled { maxAttempts = 1 }`. -/
def effectiveMaxAttempts (cfg : RetryConfig) : ℕ :=
  if cfg.enabled then cfg.maxAttempts else 1

/-- The attempt loop of Retrier.Do. The closure outcome of the n-th invocation
is outcomes n (none = success, some e = the returned error); the result pairs
the returned error value with the number of invocations performed. -/
def doAux (outcomes : ℕ → Option String) : ℕ → ℕ → Option String → Option String × ℕ
  | _, 0, lastErr => (lastErr, 0)
  | attempt, r + 1, lastErr =>
      match outcomes attempt with
      | none => (none, 1)
      | some e =>
          let res := doAux outcomes (attempt + 1) r (some e)
          (res.1, res.2 + 1)

/-- Retrier.Do: run the closure for attempts 1..effectiveMaxAttempts, stopping
at the first success, returning the last error on exhaustion. The backoff
sleep between attempts does not influence result or invocation count. -/
def Do (cfg : RetryConfig) (outcomes : ℕ → Option String) : Option String × ℕ :=
  doAux outcomes 1 (effectiveMaxAttempts cfg) none

/-- Retrier.calculateBackoff: initial_backoff · 2^(attempt-1), capped at
max_backoff, then multiplied by the jitter draw and truncated to an integer
duration (Go converts the float64 back to time.Duration). -/
def calculateBackoff (cfg : RetryConfig) (attempt : ℕ) (jitter : ℚ) : ℤ :=
  let backoff := cfg.initialBackoff * 2 ^ (attempt - 1)
  let capped := if backoff > cfg.maxBackoff then cfg.maxBackoff else backoff
  ⌊capped * jitter⌋

lemma doAux_count_le (outcomes : ℕ → Option String) :
    ∀ r a e, (doAux outcomes a r e).2 ≤ r := by
  intro r
  induction r with
  | zero => intro a e; simp [doAux]
  | succ n ih =>
      intro a e
      rw [doAux]
      cases outcomes a with
      | none => simp
      | some err => simpa using ih (a + 1) (some err)

lemma doAux_first_success (outcomes : ℕ → Option String) :
    ∀ r a e t, t < r → outcomes (a + t) = none →
      (∀ l, l < t → outcomes (a + l) ≠ none) →
      doAux outcomes a r e = (none, t + 1) := by
  intro r
  induction r with
  | zero => intro a e t ht; omega
  | succ n ih =>
      intro a e t ht hsucc hbefore
      rw [doAux]
      cases t with
      | zero =>
          simp only [Nat.add_zero] at hsucc
          rw [hsucc]
      | succ t₂ =>
          have h₀ : outcomes a ≠ none := by
            have := hbefore 0 (by omega)
            simpa using this
          cases hout : outcomes a with
          | none => exact absurd hout h₀
          | some err =>
              have hrec := ih (a + 1) (some err) t₂ (by omega)
                (by rw [show a + 1 + t₂ = a + (t₂ + 1) from by omega]; exact hsucc)
                (fun l hl => by
                  rw [show a + 1 + l = a + (l + 1) from by omega]
                  exact hbefore (l + 1) (by omega))
              simp [hrec]

lemma doAux_all_fail (outcomes : ℕ → Option String) :
    ∀ r a e, 1 ≤ r → (∀ t, t < r → outcomes (a + t) ≠ none) →
      doAux outcomes a r e = (outcomes (a + r - 1), r) := by
  intro r
  induction r with
  | zero => intro a e h; omega
  | succ n ih =>
      intro a e _ hfail
      rw [doAux]
      have h₀ : outcomes a ≠ none := by
        have := hfail 0 (by omega)
        simpa using this
      cases hout : outcomes a with
      | none => exact absurd hout h₀
      | some err =>
          cases n with
          | zero =>
              simp [doAux, hout, show a + 1 - 1 = a from rfl]
          | succ m =>
              have hrec := ih (a + 1) (some err) (by omega)
                (fun t ht => by
                  rw [show a + 1 + t = a + (t + 1) from by omega]
                  exact hfail (t + 1) (by omega))
              rw [show a + 1 + (m + 1) - 1 = a + (m + 1 + 1) - 1 from by omega] at hrec
              simp only [hrec]

/-- Claim C6: Do invokes the closure at most max_attempts times; it stops with
success at the first succeeding invocation; with retry disabled or
max_attempts = 1 the closure runs exactly once regardless of outcome; and on
exhaustion the error of the last invocation is returned. -/
theorem retrier_do_behaviour (cfg : RetryConfig) (outcomes : ℕ → Option String)
    (hmax : 1 ≤ cfg.maxAttempts) :
    ((Do cfg outcomes).2 ≤ cfg.maxAttempts) ∧
    (∀ k, 1 ≤ k → k ≤ effectiveMaxAttempts cfg → outcomes k = none →
      (∀ l, 1 ≤ l → l < k → outcomes l ≠ none) →
      Do cfg outcomes = (none, k)) ∧
    ((cfg.enabled = false ∨ cfg.maxAttempts = 1) → (Do cfg outcomes).2 = 1) ∧
    ((∀ l, 1 ≤ l → l ≤ effectiveMaxAttempts cfg → outcomes l ≠ none) →
      Do cfg outcomes = (outcomes (effectiveMaxAttempts cfg), effectiveMaxAttempts cfg)) := by
  have heff : 1 ≤ effectiveMaxAttempts cfg := by
    unfold effectiveMaxAttempts
    split_ifs <;> omega
  refine ⟨?_, ?_, ?_, ?_⟩
  · have h : (Do cfg outcomes).2 ≤ effectiveMaxAttempts cfg :=
      doAux_count_le outcomes (effectiveMaxAttempts cfg) 1 none
    have h₂ : effectiveMaxAttempts cfg ≤ cfg.maxAttempts := by
      unfold effectiveMaxAttempts
      split_ifs <;> omega
    exact le_trans h h₂
  · intro k hk₁ hk₂ hsucc hbefore
    have := doAux_first_success outcomes (effectiveMaxAttempts cfg) 1 none (k - 1)
      (by omega) (by rw [show 1 + (k - 1) = k from by omega]; exact hsucc)
      (fun l hl => by
        rw [show 1 + l = l + 1 from by omega]
        exact hbefore (l + 1) (by omega) (by omega))
    rw [Do, this, show k - 1 + 1 = k from by omega]
  · intro hdis
    have h₁ : effectiveMaxAttempts cfg = 1 := by
      unfold effectiveMaxAttempts
      rcases hdis with h | h <;> simp [h]
    rw [Do, h₁, doAux]
    cases outcomes 1 <;> simp [doAux]
  · intro hfail
    have := doAux_all_fail outcomes (effectiveMaxAttempts cfg) 1 none heff
      (fun t ht => hfail (1 + t) (by omega) (by omega))
    rw [Do, this, show 1 + effectiveMaxAttempts cfg - 1 = effectiveMaxAttempts cfg from by omega]

/-- Witness for C6: three attempts allowed, the closure fails once then
succeeds: two invocations, success returned. -/
theorem retrier_do_behaviour_witness :
    Do ⟨true, 3, 1, 10⟩ (fun n => if n < 2 then some "boom" else none) = (none, 2) := by
  obtain ⟨-, hfirst, -, -⟩ := retrier_do_behaviour ⟨true, 3, 1, 10⟩
    (fun n => if n < 2 then some "boom" else none) (by decide)
  exact hfirst 2 (by decide) (by decide) (by decide)
    (fun l h₁ h₂ => by interval_cases l <;> simp)

/-- Counterexample for C7: with initial_backoff = max_backoff = 100 and a
jitter draw of 6/5 ∈ [0.75, 1.25], the backoff before attempt 2 computes to
120, strictly above max_backoff. -/
theorem backoff_exceeds_max_counterexample :
    calculateBackoff ⟨true, 3, 100, 100⟩ 1 (6 / 5) = 120 ∧
      (100 : ℤ) < calculateBackoff ⟨true, 3, 100, 100⟩ 1 (6 / 5) := by
  constructor <;> norm_num [calculateBackoff]

/-- Claim C7 (amended): the jitter multiplier is applied after the cap, so the
computed backoff is bounded by 1.25 · max_backoff (not by max_backoff). -/
theorem backoff_le_jittered_max (cfg : RetryConfig) (attempt : ℕ) (jitter : ℚ)
    (hmax : 0 ≤ cfg.maxBackoff) (hj₁ : 3 / 4 ≤ jitter) (hj₂ : jitter ≤ 5 / 4) :
    ((calculateBackoff cfg attempt jitter : ℤ) : ℚ) ≤ 5 / 4 * cfg.maxBackoff := by
  unfold calculateBackoff
  have hcap : (if cfg.initialBackoff * 2 ^ (attempt - 1) > cfg.maxBackoff then cfg.maxBackoff
      else cfg.initialBackoff * 2 ^ (attempt - 1)) ≤ cfg.maxBackoff := by
    split_ifs with h
    · exact le_refl _
    · exact le_of_not_lt h
  set capped := if cfg.initialBackoff * 2 ^ (attempt - 1) > cfg.maxBackoff then cfg.maxBackoff
      else cfg.initialBackoff * 2 ^ (attempt - 1) with hc
  have hfloor : ((⌊capped * jitter⌋ : ℤ) : ℚ) ≤ capped * jitter := Int.floor_le _
  have hmul : capped * jitter ≤ cfg.maxBackoff * (5 / 4) := by
    have hj₀ : 0 ≤ jitter := le_trans (by norm_num) hj₁
    calc capped * jitter ≤ cfg.maxBackoff * jitter :=
          mul_le_mul_of_nonneg_right hcap hj₀
      _ ≤ cfg.maxBackoff * (5 / 4) := mul_le_mul_of_nonneg_left hj₂ hmax
  calc ((⌊capped * jitter⌋ : ℤ) : ℚ) ≤ capped * jitter := hfloor
    _ ≤ cfg.maxBackoff * (5 / 4) := hmul
    _ = 5 / 4 * cfg.maxBackoff := by ring

/-- Witness for C7 (amended): at the concrete counterexample configuration the
jittered backoff 120 indeed stays below 1.25 · 100 = 125. -/
theorem backoff_le_jittered_max_witness :
    ((calculateBackoff ⟨true, 3, 100, 100⟩ 1 (6 / 5) : ℤ) : ℚ) ≤
      5 / 4 * (100 : ℚ) := by
  have h := backoff_le_jittered_max ⟨true, 3, 100, 100⟩ 1 (6 / 5)
    (by norm_num) (by norm_num) (by norm_num)
  simpa using h

/-! ## Round robin (internal/balancer/balancer.go, RoundRobin) -/

/-- Default used to spell total list indexing; never read on the proven paths. -/
def defaultBackend : Backend := ⟨"", 0⟩

/-- RoundRobin.SelectBackend: empty input or empty healthy set fail, otherwise
take the healthy backend at index (next - 1) mod len for next = counter + 1,
returning the advanced counter. -/
def rrSelect (counter : ℕ) (backends : List Backend) (hs : String → Option Bool) :
    Option (Backend × ℕ) :=
  if backends.length = 0 then none
  else
    let healthyBackends := healthyFilter backends hs
    if healthyBackends.length = 0 then none
    else
      let next := counter + 1
      some (healthyBackends.getD ((next - 1) % healthyBackends.length) defaultBackend, next)

/-- A sequence of consecutive RoundRobin.SelectBackend calls with a fixed
backends slice and health snapshot, threading the shared counter. -/
def rrRun (backends : List Backend) (hs : String → Option Bool) :
    ℕ → ℕ → Option (List Backend × ℕ)
  | counter, 0 => some ([], counter)
  | counter, n + 1 =>
      match rrSelect counter backends hs with
      | none => none
      | some (b, c₂) => (rrRun backends hs c₂ n).map (fun p => (b :: p.1, p.2))

lemma healthyFilter_ne_nil_of_filter {backends : List Backend} {hs : String → Option Bool}
    (h : healthyFilter backends hs ≠ []) : backends ≠ [] := by
  intro hb
  rw [hb] at h
  exact h rfl

lemma rrSelect_eq (counter : ℕ) (backends : List Backend) (hs : String → Option Bool)
    (h : healthyFilter backends hs ≠ []) :
    rrSelect counter backends hs =
      some ((healthyFilter backends hs).getD
        (counter % (healthyFilter backends hs).length) defaultBackend, counter + 1) := by
  have hb : backends.length ≠ 0 := by
    simpa [List.length_eq_zero] using healthyFilter_ne_nil_of_filter h
  have hh : (healthyFilter backends hs).length ≠ 0 := by
    simpa [List.length_eq_zero] using h
  simp [rrSelect, hb, hh]

lemma rrRun_closed_form (backends : List Backend) (hs : String → Option Bool)
    (h : healthyFilter backends hs ≠ []) :
    ∀ n counter, rrRun backends hs counter n =
      some ((List.range n).map (fun t =>
          (healthyFilter backends hs).getD
            ((counter + t) % (healthyFilter backends hs).length) defaultBackend),
        counter + n) := by
  intro n
  induction n with
  | zero => intro counter; simp [rrRun]
  | succ n ih =>
      intro counter
      have hmap : (List.range (n + 1)).map (fun t =>
            (healthyFilter backends hs).getD
              ((counter + t) % (healthyFilter backends hs).length) defaultBackend) =
          (healthyFilter backends hs).getD
              (counter % (healthyFilter backends hs).length) defaultBackend ::
            (List.range n).map (fun t =>
              (healthyFilter backends hs).getD
                ((counter + 1 + t) % (healthyFilter backends hs).length) defaultBackend) := by
        rw [List.range_succ_eq_map n, List.map_cons, List.map_map, Nat.add_zero]
        refine congrArg₂ List.cons rfl (List.map_congr_left ?_)
        intro t _
        simp only [Function.comp_apply, Nat.succ_eq_add_one]
        rw [show counter + (t + 1) = counter + 1 + t from by omega]
      rw [rrRun, rrSelect_eq counter backends hs h]
      dsimp only
      rw [ih (counter + 1), Option.map_some', hmap]
      dsimp only
      rw [show counter + 1 + n = counter + (n + 1) from by omega]

lemma countP_eq_range (k j : ℕ) (hj : j < k) :
    (List.range k).countP (fun s => s = j) = 1 := by
  have h₁ : (List.range k).countP (fun s => s = j) = (List.range k).count j := by
    rw [List.count_eq_countP]
    refine List.countP_congr ?_
    intro a _
    simp [beq_iff_eq]
  rw [h₁]
  exact List.count_eq_one_of_mem (List.nodup_range k) (List.mem_range.mpr hj)

lemma countP_mod_range_mul (k j : ℕ) (hj : j < k) :
    ∀ m : ℕ, (List.range (k * m)).countP (fun t => t % k = j) = m := by
  intro m
  induction m with
  | zero => simp
  | succ m ih =>
      rw [Nat.mul_succ, List.range_add, List.countP_append, ih, List.countP_map]
      have hcongr : (List.range k).countP ((fun t => decide (t % k = j)) ∘ (k * m + ·)) =
          (List.range k).countP (fun s => s = j) := by
        refine List.countP_congr ?_
        intro s hs
        have hsk : s < k := List.mem_range.mp hs
        simp only [Function.comp_apply, decide_eq_true_eq]
        rw [show k * m + s = s + m * k from by ring, Nat.add_mul_mod_self_right,
          Nat.mod_eq_of_lt hsk]
      rw [hcongr, countP_eq_range k j hj]

lemma getD_inj_of_nodup {l : List Backend} (hnd : l.Nodup) {a b : ℕ}
    (ha : a < l.length) (hb : b < l.length)
    (h : l.getD a defaultBackend = l.getD b defaultBackend) : a = b := by
  rw [List.getD_eq_getElem l defaultBackend ha, List.getD_eq_getElem l defaultBackend hb] at h
  have h₂ := (List.Nodup.get_inj_iff hnd (i := ⟨a, ha⟩) (j := ⟨b, hb⟩)).mp h
  exact congrArg Fin.val h₂

/-- Claim C5: with a fixed healthy set of k distinct backends and a fresh
counter, over N = k·m consecutive calls the i-th call returns the backend at
index (i-1) mod k of the healthy list, and each backend is selected exactly
m times. -/
theorem rr_rotation (backends : List Backend) (hs : String → Option Bool) (m : ℕ)
    (hne : healthyFilter backends hs ≠ [])
    (hnd : (healthyFilter backends hs).Nodup) :
    ∃ sels c₂,
      rrRun backends hs 0 ((healthyFilter backends hs).length * m) = some (sels, c₂) ∧
      (∀ i, 1 ≤ i → i ≤ (healthyFilter backends hs).length * m →
        sels.getD (i - 1) defaultBackend =
          (healthyFilter backends hs).getD
            ((i - 1) % (healthyFilter backends hs).length) defaultBackend) ∧
      (∀ j, j < (healthyFilter backends hs).length →
        sels.count ((healthyFilter backends hs).getD j defaultBackend) = m) := by
  have hk : 0 < (healthyFilter backends hs).length := List.length_pos.mpr hne
  have hrun := rrRun_closed_form backends hs hne ((healthyFilter backends hs).length * m) 0
  refine ⟨_, _, hrun, ?_, ?_⟩
  · intro i hi₁ hi₂
    have hlt : i - 1 < ((List.range ((healthyFilter backends hs).length * m)).map (fun t =>
        (healthyFilter backends hs).getD
          ((0 + t) % (healthyFilter backends hs).length) defaultBackend)).length := by
      rw [List.length_map, List.length_range]
      omega
    rw [List.getD_eq_getElem _ _ hlt, List.getElem_map, List.getElem_range]
    rw [Nat.zero_add]
  · intro j hj
    rw [List.count_eq_countP, List.countP_map]
    have hcongr : (List.range ((healthyFilter backends hs).length * m)).countP
        ((fun b => b == (healthyFilter backends hs).getD j defaultBackend) ∘ (fun t =>
          (healthyFilter backends hs).getD
            ((0 + t) % (healthyFilter backends hs).length) defaultBackend)) =
        (List.range ((healthyFilter backends hs).length * m)).countP
          (fun t => t % (healthyFilter backends hs).length = j) := by
      refine List.countP_congr ?_
      intro t _
      have hmod : (0 + t) % (healthyFilter backends hs).length <
          (healthyFilter backends hs).length := Nat.mod_lt _ hk
      simp only [Function.comp_apply, beq_iff_eq, decide_eq_true_eq, Nat.zero_add]
      constructor
      · intro hgd
        exact getD_inj_of_nodup hnd (by simpa using hmod) hj hgd
      · intro hmod₂
        rw [hmod₂]
    rw [hcongr]
    exact countP_mod_range_mul (healthyFilter backends hs).length j hj m

/-- Witness for C5: two healthy backends, four calls: selections alternate and
each backend is chosen exactly twice. -/
theorem rr_rotation_witness :
    ∃ sels c₂,
      rrRun [⟨"a", 1⟩, ⟨"b", 1⟩] (fun _ => none) 0 4 = some (sels, c₂) ∧
      sels.getD 2 defaultBackend = ⟨"a", 1⟩ ∧
      sels.count ⟨"b", 1⟩ = 2 := by
  obtain ⟨sels, c₂, hrun, hidx, hcount⟩ :=
    rr_rotation [⟨"a", 1⟩, ⟨"b", 1⟩] (fun _ => none) 2 (by decide) (by decide)
  have hlen : (healthyFilter [⟨"a", 1⟩, ⟨"b", 1⟩] (fun _ => none)).length * 2 = 4 := by decide
  rw [hlen] at hrun
  refine ⟨sels, c₂, hrun, ?_, ?_⟩
  · have h₃ := hidx 3 (by decide) (by rw [hlen]; decide)
    have hgd : (healthyFilter [⟨"a", 1⟩, ⟨"b", 1⟩] (fun _ => none)).getD
        ((3 - 1) % (healthyFilter [⟨"a", 1⟩, ⟨"b", 1⟩] (fun _ => none)).length)
        defaultBackend = ⟨"a", 1⟩ := by decide
    rw [hgd] at h₃
    exact h₃
  · have h₁ := hcount 1 (by decide)
    have hgd : (healthyFilter [⟨"a", 1⟩, ⟨"b", 1⟩] (fun _ => none)).getD 1
        defaultBackend = ⟨"b", 1⟩ := by decide
    rw [hgd] at h₁
    exact h₁

/-! ## Least connections (internal/balancer/balancer.go, LeastConnections) -/

/-- The selection scan of LeastConnections.SelectBackend:
`minConnections := -1; for i, b { if minConnections == -1 || conns < minConnections { ... } }`. -/
def lcSelectLoop (conns : String → ℤ) : List Backend → ℤ × Option Backend → ℤ × Option Backend
  | [], acc => acc
  | b :: rest, acc =>
      lcSelectLoop conns rest
        (if acc.1 = -1 ∨ conns b.url < acc.1 then (conns b.url, some b) else acc)

/-- LeastConnections.SelectBackend: filter by health, then pick the scanned
minimum-connection backend (nil selection also yields the error). -/
def lcSelect (conns : String → ℤ) (backends : List Backend) (hs : String → Option Bool) :
    Option Backend :=
  if backends.length = 0 then none
  else
    let healthyBackends := healthyFilter backends hs
    if healthyBackends.length = 0 then none
    else
      match (lcSelectLoop conns healthyBackends (-1, none)).2 with
      | none => none
      | some b => some b

lemma lcSelectLoop_mem (conns : String → ℤ) :
    ∀ (l : List Backend) (acc : ℤ × Option Backend) (b : Backend),
      (lcSelectLoop conns l acc).2 = some b → acc.2 = some b ∨ b ∈ l := by
  intro l
  induction l with
  | nil => intro acc b h; exact Or.inl h
  | cons hd rest ih =>
      intro acc b h
      rw [lcSelectLoop] at h
      rcases ih _ b h with h₂ | h₂
      · by_cases hcond : acc.1 = -1 ∨ conns hd.url < acc.1
        · rw [if_pos hcond] at h₂
          simp only at h₂
          have hbd : hd = b := by simpa using h₂
          exact Or.inr (by simp [hbd])
        · rw [if_neg hcond] at h₂
          exact Or.inl h₂
      · exact Or.inr (List.mem_cons_of_mem hd h₂)

lemma lcSelectLoop_isSome_stable (conns : String → ℤ) :
    ∀ (l : List Backend) (acc : ℤ × Option Backend),
      acc.2.isSome → ((lcSelectLoop conns l acc).2).isSome := by
  intro l
  induction l with
  | nil => intro acc h; exact h
  | cons hd rest ih =>
      intro acc h
      rw [lcSelectLoop]
      refine ih _ ?_
      by_cases hcond : acc.1 = -1 ∨ conns hd.url < acc.1
      · rw [if_pos hcond]; simp
      · rw [if_neg hcond]; exact h

lemma lcSelectLoop_isSome (conns : String → ℤ) (l : List Backend) (hne : l ≠ []) :
    ((lcSelectLoop conns l (-1, none)).2).isSome := by
  cases l with
  | nil => exact absurd rfl hne
  | cons hd rest =>
      rw [lcSelectLoop, if_pos (Or.inl rfl)]
      exact lcSelectLoop_isSome_stable conns rest _ (by simp)

/-! ## Dispatch pipeline (internal/proxy/proxy.go) -/

/-- The response observed by the client: status code and body. -/
structure HttpResponse where
  statusCode : ℕ
  body : String
deriving DecidableEq, Repr

/-- Handler.writeError: status code plus the JSON error body
produced by fmt.Sprintf. -/
def writeError (message : String) (statusCode : ℕ) : HttpResponse :=
  ⟨statusCode, "\x7b\"error\":\"" ++ message ++ "\",\"code\":" ++ toString statusCode ++ "\x7d"⟩

/-- An upstream as seen by the dispatch path: its name keys the handler's
rate-limiter map. -/
structure UpstreamCfg where
  name : String

/-- Handler.ServeHTTP: with no upstream configured answer 503 before anything
else runs; otherwise check the first upstream's rate limiter (when one exists)
and answer 429 on rejection; only then run the retry loop, whose attempt
closure performs backend selection, the circuit-breaker consult and the
forward. The attempt closure is abstracted by the outcome of its n-th
invocation, and the second component counts how many times it ran. -/
def serveHTTP (upstreams : List UpstreamCfg)
    (rateLimiters : String → Option (RateLimitConfig × (String → List ℤ)))
    (clientIP : String) (now : ℤ) (retryCfg : RetryConfig)
    (attemptOutcomes : ℕ → Option String) : HttpResponse × ℕ :=
  match upstreams with
  | [] => (writeError "No upstreams configured" 503, 0)
  | u :: _ =>
      let proceed : HttpResponse × ℕ :=
        let r := Do retryCfg attemptOutcomes
        (match r.1 with
         | none => ⟨200, ""⟩
         | some _ => writeError "Service temporarily unavailable" 503, r.2)
      match rateLimiters u.name with
      | some rl =>
          if (allow rl.1 (rl.2 clientIP) now).1 then proceed
          else (writeError "Rate limit exceeded" 429, 0)
      | none => proceed

/-- Claim C9: with zero upstreams the handler answers 503 with the
"No upstreams configured" error body and zero attempt-closure invocations
(hence no selection, forwarding or retry), for every attempt closure; when the
first upstream's rate limiter rejects the client the handler answers 429 with
the "Rate limit exceeded" error body and again zero invocations. -/
theorem dispatch_early_errors :
    (∀ rls (clientIP : String) (now : ℤ) retryCfg attemptOutcomes,
      serveHTTP [] rls clientIP now retryCfg attemptOutcomes =
        (writeError "No upstreams configured" 503, 0) ∧
      (writeError "No upstreams configured" 503).statusCode = 503 ∧
      (writeError "No upstreams configured" 503).body =
        "\x7b\"error\":\"No upstreams configured\",\"code\":503\x7d") ∧
    (∀ (u : UpstreamCfg) rest rls (clientIP : String) (now : ℤ) retryCfg attemptOutcomes rl,
      rls u.name = some rl → (allow rl.1 (rl.2 clientIP) now).1 = false →
      serveHTTP (u :: rest) rls clientIP now retryCfg attemptOutcomes =
        (writeError "Rate limit exceeded" 429, 0) ∧
      (writeError "Rate limit exceeded" 429).statusCode = 429 ∧
      (writeError "Rate limit exceeded" 429).body =
        "\x7b\"error\":\"Rate limit exceeded\",\"code\":429\x7d") := by
  constructor
  · intro rls clientIP now retryCfg attemptOutcomes
    exact ⟨rfl, rfl, rfl⟩
  · intro u rest rls clientIP now retryCfg attemptOutcomes rl hrl hallow
    refine ⟨?_, rfl, rfl⟩
    rw [serveHTTP, hrl]
    simp only [hallow, Bool.false_eq_true, if_false]

/-- Witness for C9: a concrete limiter (limit 1, window 10, one admitted
request at time 5) rejects a call at time 6 and the handler answers 429. -/
theorem dispatch_early_errors_witness :
    serveHTTP [⟨"web"⟩] (fun _ => some (⟨true, 1, 10⟩, fun _ => [5])) "1.2.3.4" 6
      ⟨true, 3, 1, 10⟩ (fun _ => none) = (writeError "Rate limit exceeded" 429, 0) := by
  obtain ⟨-, hrl⟩ := dispatch_early_errors
  exact (hrl ⟨"web"⟩ [] (fun _ => some (⟨true, 1, 10⟩, fun _ => [5])) "1.2.3.4" 6
    ⟨true, 3, 1, 10⟩ (fun _ => none) (⟨true, 1, 10⟩, fun _ => [5]) rfl (by decide)).1

/-! ## Weighted smooth round robin (internal/balancer/balancer.go, WeightedRoundRobin) -/

/-- The per-call increment loop of WeightedRoundRobin.SelectBackend:
`for _, b := range healthyBackends { wrr.weights[b.URL] += b.Weight }`.
The map is a total function with zero default, which also covers the
initialisation of missing entries to zero. -/
def wrrIncWeights (weights : String → ℤ) (healthy : List Backend) : String → ℤ :=
  healthy.foldl (fun g b => updMap g b.url (g b.url + b.weight)) weights

/-- `totalWeight := Σ backend.Weight` over the healthy backends. -/
def wrrTotalWeight (healthy : List Backend) : ℤ :=
  (healthy.map Backend.weight).sum

/-- WeightedRoundRobin.SelectBackend: filter by health, add each weight to the
running current weight, scan for the backend with the largest current weight
(scan starts at maxWeight = -1, so a nil selection is possible and yields the
error), and subtract the total weight from the selected entry. -/
def wrrSelect (weights : String → ℤ) (backends : List Backend) (hs : String → Option Bool) :
    Option (Backend × (String → ℤ)) :=
  if backends.length = 0 then none
  else
    let healthyBackends := healthyFilter backends hs
    if healthyBackends.length = 0 then none
    else
      let newWeights := wrrIncWeights weights healthyBackends
      let totalWeight := wrrTotalWeight healthyBackends
      match (selectLoop (healthyBackends.map (fun b => newWeights b.url)) 0 (-1, none)).2 with
      | none => none
      | some j =>
          let selected := healthyBackends.getD j defaultBackend
          some (selected, updMap newWeights selected.url (newWeights selected.url - totalWeight))

/-- A sequence of consecutive WeightedRoundRobin.SelectBackend calls with a
fixed backends slice and health snapshot, threading the weights map. -/
def wrrRun (backends : List Backend) (hs : String → Option Bool) :
    (String → ℤ) → ℕ → Option (List Backend × (String → ℤ))
  | f, 0 => some ([], f)
  | f, n + 1 =>
      match wrrSelect f backends hs with
      | none => none
      | some (b, f₂) => (wrrRun backends hs f₂ n).map (fun p => (b :: p.1, p.2))

lemma le_foldl_max : ∀ (l : List ℤ) (a : ℤ), a ≤ l.foldl max a := by
  intro l
  induction l with
  | nil => intro a; exact le_refl a
  | cons x rest ih =>
      intro a
      rw [List.foldl_cons]
      exact le_trans (le_max_left a x) (ih (max a x))

lemma mem_le_foldl_max : ∀ (l : List ℤ) (a x : ℤ), x ∈ l → x ≤ l.foldl max a := by
  intro l
  induction l with
  | nil => intro a x hx; simp at hx
  | cons y rest ih =>
      intro a x hx
      rw [List.foldl_cons]
      rcases List.mem_cons.mp hx with h | h
      · exact h ▸ le_trans (le_max_right a x) (le_foldl_max rest (max a x))
      · exact ih (max a y) x h

lemma foldl_max_of_forall_le : ∀ (l : List ℤ) (a : ℤ), (∀ x ∈ l, x ≤ a) → l.foldl max a = a := by
  intro l
  induction l with
  | nil => intro a _; rfl
  | cons y rest ih =>
      intro a h
      rw [List.foldl_cons, max_eq_left (h y (by simp))]
      exact ih a (fun x hx => h x (List.mem_cons_of_mem y hx))

lemma selectLoop_isSome_stable :
    ∀ (l : List ℤ) (i : ℕ) (acc : ℤ × Option ℕ),
      acc.2.isSome → ((selectLoop l i acc).2).isSome := by
  intro l
  induction l with
  | nil => intro i acc h; exact h
  | cons v rest ih =>
      intro i acc h
      rw [selectLoop]
      refine ih _ _ ?_
      by_cases hv : v > acc.1
      · rw [if_pos hv]; simp
      · rw [if_neg hv]; exact h

lemma selectLoop_isSome :
    ∀ (l : List ℤ) (i : ℕ) (m : ℤ) (s : Option ℕ),
      (∃ x ∈ l, m < x) → ((selectLoop l i (m, s)).2).isSome := by
  intro l
  induction l with
  | nil => intro i m s h; simp at h
  | cons v rest ih =>
      intro i m s h
      rw [selectLoop]
      by_cases hv : v > m
      · rw [if_pos hv]
        exact selectLoop_isSome_stable rest (i + 1) _ (by simp)
      · rw [if_neg hv]
        obtain ⟨x, hx, hmx⟩ := h
        rcases List.mem_cons.mp hx with h₂ | h₂
        · exact absurd (h₂ ▸ hmx) hv
        · exact ih (i + 1) m s ⟨x, h₂, hmx⟩

lemma selectLoop_sel_spec :
    ∀ (l : List ℤ) (i : ℕ) (m : ℤ) (s : Option ℕ) (j : ℕ),
      (selectLoop l i (m, s)).2 = some j →
      (s = some j ∧ ∀ x ∈ l, x ≤ m) ∨
        (∃ t, t < l.length ∧ j = i + t ∧ l.getD t 0 = l.foldl max m) := by
  intro l
  induction l with
  | nil => intro i m s j h; exact Or.inl ⟨h, by simp⟩
  | cons v rest ih =>
      intro i m s j h
      rw [selectLoop] at h
      by_cases hv : v > m
      · rw [if_pos hv] at h
        rcases ih (i + 1) v (some i) j h with ⟨hj, hall⟩ | ⟨t, ht, hj, hval⟩
        · have hji : j = i := by simpa using hj.symm
          refine Or.inr ⟨0, by simp, by omega, ?_⟩
          rw [List.foldl_cons, max_eq_right (le_of_lt hv),
            foldl_max_of_forall_le rest v hall]
          rfl
        · refine Or.inr ⟨t + 1, by simpa using ht, by omega, ?_⟩
          rw [List.foldl_cons, max_eq_right (le_of_lt hv)]
          simpa [List.getD] using hval
      · rw [if_neg hv] at h
        rcases ih (i + 1) m s j h with ⟨hj, hall⟩ | ⟨t, ht, hj, hval⟩
        · exact Or.inl ⟨hj, fun x hx => by
            rcases List.mem_cons.mp hx with h₂ | h₂
            · exact h₂ ▸ le_of_not_lt hv
            · exact hall x h₂⟩
        · refine Or.inr ⟨t + 1, by simpa using ht, by omega, ?_⟩
          rw [List.foldl_cons, max_eq_left (le_of_not_lt hv)]
          simpa [List.getD] using hval

lemma foldl_upd_not_mem :
    ∀ (l : List Backend) (g : String → ℤ) (u : String), u ∉ l.map Backend.url →
      (l.foldl (fun g b => updMap g b.url (g b.url + b.weight)) g) u = g u := by
  intro l
  induction l with
  | nil => intro g u _; rfl
  | cons hd rest ih =>
      intro g u hu
      rw [List.map_cons, List.mem_cons] at hu
      push_neg at hu
      rw [List.foldl_cons, ih _ u hu.2, updMap, if_neg hu.1]

lemma wrrIncWeights_mem :
    ∀ (l : List Backend) (g : String → ℤ) (b : Backend), (l.map Backend.url).Nodup →
      b ∈ l → wrrIncWeights g l b.url = g b.url + b.weight := by
  intro l
  induction l with
  | nil => intro g b _ hb; simp at hb
  | cons hd rest ih =>
      intro g b hnd hb
      rw [List.map_cons, List.nodup_cons] at hnd
      rcases List.mem_cons.mp hb with h | h
      · subst h
        rw [wrrIncWeights, List.foldl_cons, foldl_upd_not_mem rest _ b.url hnd.1,
          updMap, if_pos rfl]
      · have hurl : b.url ≠ hd.url := by
          intro hcontra
          exact hnd.1 (hcontra ▸ List.mem_map_of_mem Backend.url h)
        have := ih (updMap g hd.url (g hd.url + hd.weight)) b hnd.2 h
        rw [wrrIncWeights, List.foldl_cons]
        rw [wrrIncWeights] at this
        rw [this, updMap, if_neg hurl]

lemma url_inj :
    ∀ (l : List Backend), (l.map Backend.url).Nodup →
      ∀ b ∈ l, ∀ c ∈ l, b.url = c.url → b = c := by
  intro l
  induction l with
  | nil => intro _ b hb; simp at hb
  | cons hd rest ih =>
      intro hnd b hb c hc hurl
      rw [List.map_cons, List.nodup_cons] at hnd
      rcases List.mem_cons.mp hb with h₁ | h₁ <;> rcases List.mem_cons.mp hc with h₂ | h₂
      · rw [h₁, h₂]
      · exact absurd (h₁ ▸ hurl ▸ List.mem_map_of_mem Backend.url h₂) (h₁ ▸ hnd.1)
      · exact absurd (h₂ ▸ hurl ▸ List.mem_map_of_mem Backend.url h₁) (h₂ ▸ hnd.1)
      · exact ih hnd.2 b h₁ c h₂ hurl

lemma sum_map_ite_eq :
    ∀ (l : List Backend), l.Nodup → ∀ s ∈ l, ∀ W : ℤ,
      (l.map (fun b => if b = s then W else 0)).sum = W := by
  intro l
  induction l with
  | nil => intro _ s hs; simp at hs
  | cons hd rest ih =>
      intro hnd s hs W
      rw [List.nodup_cons] at hnd
      rw [List.map_cons, List.sum_cons]
      rcases List.mem_cons.mp hs with h | h
      · rw [if_pos h.symm]
        have hzero : (rest.map (fun b => if b = s then W else 0)).sum = 0 := by
          have hmap : rest.map (fun b => if b = s then W else 0) =
              rest.map (fun _ => (0 : ℤ)) := by
            refine List.map_congr_left ?_
            intro x hx
            have hne : x ≠ s := by
              intro hxs
              refine hnd.1 ?_
              rw [← h, ← hxs]
              exact hx
            rw [if_neg hne]
          rw [hmap]
          simp
        rw [hzero, add_zero]
      · have hne : hd ≠ s := by
          intro hhd
          refine hnd.1 ?_
          rw [hhd]
          exact h
        rw [if_neg hne, ih hnd.2 s h W, zero_add]

lemma sum_map_le_zero :
    ∀ (l : List ℤ), (∀ x ∈ l, x ≤ 0) → l.sum ≤ 0 := by
  intro l
  induction l with
  | nil => intro _; simp
  | cons x rest ih =>
      intro h
      rw [List.sum_cons]
      have := ih (fun y hy => h y (List.mem_cons_of_mem x hy))
      have := h x (by simp)
      omega

lemma length_le_sum_map :
    ∀ (l : List Backend), (∀ b ∈ l, 1 ≤ b.weight) →
      (l.length : ℤ) ≤ (l.map Backend.weight).sum := by
  intro l
  induction l with
  | nil => intro _; simp
  | cons hd rest ih =>
      intro h
      rw [List.map_cons, List.sum_cons, List.length_cons]
      have h₁ := ih (fun b hb => h b (List.mem_cons_of_mem hd hb))
      have h₂ := h hd (by simp)
      push_cast
      omega

lemma sum_all_zero :
    ∀ (l : List ℤ), (∀ x ∈ l, 0 ≤ x) → l.sum = 0 → ∀ x ∈ l, x = 0 := by
  intro l
  induction l with
  | nil => intro _ _ x hx; simp at hx
  | cons y rest ih =>
      intro hpos hsum x hx
      rw [List.sum_cons] at hsum
      have hy : 0 ≤ y := hpos y (by simp)
      have hrest : 0 ≤ rest.sum := List.sum_nonneg (fun z hz =>
        hpos z (List.mem_cons_of_mem y hz))
      rcases List.mem_cons.mp hx with h | h
      · omega
      · exact ih (fun z hz => hpos z (List.mem_cons_of_mem y hz)) (by omega) x h

/-- Invariant of the weighted round-robin current-weight map over a fixed
healthy list: the current weights sum to zero and each is at least
1 - totalWeight. -/
def WrrInv (bs : List Backend) (f : String → ℤ) : Prop :=
  (bs.map (fun b => f b.url)).sum = 0 ∧
    ∀ b ∈ bs, 1 - wrrTotalWeight bs ≤ f b.url

lemma sum_map_sub_backend (l : List Backend) (F G : Backend → ℤ) :
    (l.map fun b => F b - G b).sum = (l.map F).sum - (l.map G).sum := by
  induction l with
  | nil => simp
  | cons hd rest ih =>
      rw [List.map_cons, List.map_cons, List.map_cons, List.sum_cons, List.sum_cons,
        List.sum_cons, ih]
      ring

lemma wrrSelect_eval (f : String → ℤ) (bs : List Backend) (hs : String → Option Bool)
    (hb : ¬bs.length = 0) (hhs : healthyFilter bs hs = bs) (j : ℕ)
    (hj : (selectLoop (bs.map (fun b => wrrIncWeights f bs b.url)) 0 (-1, none)).2 = some j) :
    wrrSelect f bs hs = some (bs.getD j defaultBackend,
      updMap (wrrIncWeights f bs) (bs.getD j defaultBackend).url
        (wrrIncWeights f bs (bs.getD j defaultBackend).url - wrrTotalWeight bs)) := by
  unfold wrrSelect
  simp only [hhs, if_neg hb, hj]

lemma wrrSelect_spec (bs : List Backend) (hs : String → Option Bool)
    (hnd : (bs.map Backend.url).Nodup) (hw : ∀ b ∈ bs, 1 ≤ b.weight)
    (hne : bs ≠ []) (hhs : healthyFilter bs hs = bs) (f : String → ℤ)
    (hInv : WrrInv bs f) :
    ∃ s f₂, wrrSelect f bs hs = some (s, f₂) ∧ s ∈ bs ∧ WrrInv bs f₂ ∧
      ∀ b ∈ bs, f₂ b.url = f b.url + b.weight -
        (if b = s then wrrTotalWeight bs else 0) := by
  have hb : ¬bs.length = 0 := by
    simpa [List.length_eq_zero] using hne
  have hW1 : 1 ≤ wrrTotalWeight bs := by
    have h₁ := length_le_sum_map bs hw
    have h₂ : 1 ≤ bs.length := by
      cases bs with
      | nil => exact absurd rfl hne
      | cons x r => simp
    unfold wrrTotalWeight
    have : (1 : ℤ) ≤ (bs.length : ℤ) := by exact_mod_cast h₂
    omega
  have hglist : bs.map (fun b => wrrIncWeights f bs b.url) =
      bs.map (fun b => f b.url + b.weight) :=
    List.map_congr_left (fun b hb₂ => wrrIncWeights_mem bs f b hnd hb₂)
  have hsum : (bs.map (fun b => wrrIncWeights f bs b.url)).sum = wrrTotalWeight bs := by
    rw [hglist, List.sum_map_add, hInv.1, zero_add]
    rfl
  have hex : ∃ x ∈ bs.map (fun b => wrrIncWeights f bs b.url), (0 : ℤ) < x := by
    by_contra hcon
    push_neg at hcon
    have := sum_map_le_zero _ hcon
    omega
  obtain ⟨x, hxmem, hxpos⟩ := hex
  have hsome := selectLoop_isSome (bs.map (fun b => wrrIncWeights f bs b.url)) 0 (-1) none
    ⟨x, hxmem, by omega⟩
  obtain ⟨j, hj⟩ := Option.isSome_iff_exists.mp hsome
  rcases selectLoop_sel_spec _ 0 (-1) none j hj with ⟨hcon, -⟩ | ⟨t, ht, hjt, hval⟩
  · exact absurd hcon (by simp)
  have hjlen : j < bs.length := by
    rw [hjt, Nat.zero_add]
    simpa using ht
  have hvj : (bs.map (fun b => wrrIncWeights f bs b.url)).getD j 0 =
      wrrIncWeights f bs (bs.getD j defaultBackend).url := by
    have hj₂ : j < (bs.map (fun b => wrrIncWeights f bs b.url)).length := by
      simpa using hjlen
    rw [List.getD_eq_getElem _ _ hj₂, List.getElem_map,
      List.getD_eq_getElem bs defaultBackend hjlen]
  have hmax : ∀ y ∈ bs.map (fun b => wrrIncWeights f bs b.url),
      y ≤ wrrIncWeights f bs (bs.getD j defaultBackend).url := by
    intro y hy
    rw [← hvj, hjt, Nat.zero_add] at *
    rw [hval]
    exact mem_le_foldl_max _ (-1) y hy
  have hvj1 : 1 ≤ wrrIncWeights f bs (bs.getD j defaultBackend).url := by
    have hx₂ := hmax x hxmem
    omega
  have hmem : bs.getD j defaultBackend ∈ bs := by
    rw [List.getD_eq_getElem bs defaultBackend hjlen]
    exact List.getElem_mem hjlen
  have heval := wrrSelect_eval f bs hs hb hhs j hj
  refine ⟨bs.getD j defaultBackend,
    updMap (wrrIncWeights f bs) (bs.getD j defaultBackend).url
      (wrrIncWeights f bs (bs.getD j defaultBackend).url - wrrTotalWeight bs),
    heval, hmem, ?_, ?_⟩
  case refine_2 =>
    intro b hb₂
    by_cases hbs : b = bs.getD j defaultBackend
    · rw [if_pos hbs, hbs, updMap, if_pos rfl,
        wrrIncWeights_mem bs f (bs.getD j defaultBackend) hnd hmem]
    · have hurl : b.url ≠ (bs.getD j defaultBackend).url := by
        intro hcontra
        exact hbs (url_inj bs hnd b hb₂ (bs.getD j defaultBackend) hmem hcontra)
      rw [if_neg hbs, updMap, if_neg hurl, wrrIncWeights_mem bs f b hnd hb₂]
      ring
  case refine_1 =>
    have hpt : ∀ b ∈ bs,
        updMap (wrrIncWeights f bs) (bs.getD j defaultBackend).url
          (wrrIncWeights f bs (bs.getD j defaultBackend).url - wrrTotalWeight bs) b.url =
        f b.url + b.weight - (if b = bs.getD j defaultBackend then wrrTotalWeight bs else 0) := by
      intro b hb₂
      by_cases hbs : b = bs.getD j defaultBackend
      · rw [if_pos hbs, hbs, updMap, if_pos rfl,
          wrrIncWeights_mem bs f (bs.getD j defaultBackend) hnd hmem]
      · have hurl : b.url ≠ (bs.getD j defaultBackend).url := by
          intro hcontra
          exact hbs (url_inj bs hnd b hb₂ (bs.getD j defaultBackend) hmem hcontra)
        rw [if_neg hbs, updMap, if_neg hurl, wrrIncWeights_mem bs f b hnd hb₂]
        ring
    constructor
    · rw [List.map_congr_left hpt]
      have hsplit : (bs.map (fun b => f b.url + b.weight -
          (if b = bs.getD j defaultBackend then wrrTotalWeight bs else 0))).sum =
          (bs.map (fun b => f b.url + b.weight)).sum -
          (bs.map (fun b => if b = bs.getD j defaultBackend then wrrTotalWeight bs else 0)).sum :=
        sum_map_sub_backend bs _ _
      rw [hsplit, List.sum_map_add, hInv.1, zero_add,
        sum_map_ite_eq bs (List.Nodup.of_map Backend.url hnd) _ hmem]
      have : (bs.map Backend.weight).sum = wrrTotalWeight bs := rfl
      omega
    · intro b hb₂
      rw [hpt b hb₂]
      by_cases hbs : b = bs.getD j defaultBackend
      · rw [if_pos hbs]
        have hfb : f b.url + b.weight =
            wrrIncWeights f bs (bs.getD j defaultBackend).url := by
          rw [← hbs, wrrIncWeights_mem bs f b hnd hb₂]
        omega
      · rw [if_neg hbs]
        have h₁ := hInv.2 b hb₂
        have h₂ := hw b hb₂
        omega

lemma one_le_totalWeight (bs : List Backend) (hw : ∀ b ∈ bs, 1 ≤ b.weight)
    (hne : bs ≠ []) : 1 ≤ wrrTotalWeight bs := by
  have h₁ := length_le_sum_map bs hw
  have h₂ : 1 ≤ bs.length := by
    cases bs with
    | nil => exact absurd rfl hne
    | cons x r => simp
  unfold wrrTotalWeight
  have h₃ : (1 : ℤ) ≤ (bs.length : ℤ) := by exact_mod_cast h₂
  omega

lemma nonneg_of_dvd_lb (W x : ℤ) (hW : 1 ≤ W) (hdvd : W ∣ x) (hlb : 1 - W ≤ x) :
    0 ≤ x := by
  obtain ⟨q, rfl⟩ := hdvd
  by_contra hneg
  push_neg at hneg
  have hq : q ≤ -1 := by nlinarith
  nlinarith

lemma wrrRun_spec (bs : List Backend) (hs : String → Option Bool)
    (hnd : (bs.map Backend.url).Nodup) (hw : ∀ b ∈ bs, 1 ≤ b.weight)
    (hne : bs ≠ []) (hhs : healthyFilter bs hs = bs) :
    ∀ (n : ℕ) (f : String → ℤ), WrrInv bs f →
      ∃ sels f₂, wrrRun bs hs f n = some (sels, f₂) ∧ WrrInv bs f₂ ∧
        (∀ x ∈ sels, x ∈ bs) ∧
        ∀ b ∈ bs, f₂ b.url =
          f b.url + n * b.weight - (sels.count b) * wrrTotalWeight bs := by
  intro n
  induction n with
  | zero =>
      intro f hf
      refine ⟨[], f, rfl, hf, by simp, ?_⟩
      intro b hb
      simp
  | succ n ih =>
      intro f hf
      obtain ⟨s, f₁, hsel, hsmem, hinv₁, hpt₁⟩ := wrrSelect_spec bs hs hnd hw hne hhs f hf
      obtain ⟨sels, f₂, hrun, hinv₂, hmem₂, hpt₂⟩ := ih f₁ hinv₁
      refine ⟨s :: sels, f₂, ?_, hinv₂, ?_, ?_⟩
      · rw [wrrRun, hsel]
        dsimp only
        rw [hrun]
        rfl
      · intro x hx
        rcases List.mem_cons.mp hx with h | h
        · exact h ▸ hsmem
        · exact hmem₂ x h
      · intro b hb
        rw [hpt₂ b hb, hpt₁ b hb, List.count_cons]
        rcases eq_or_ne b s with hbs | hbs
        · subst hbs
          simp only [beq_self_eq_true, if_true, if_pos rfl]
          push_cast
          ring
        · have hsb : (s == b) = false := by
            rw [beq_eq_false_iff_ne]
            exact fun h => hbs h.symm
          rw [hsb, if_neg hbs]
          simp only [Bool.false_eq_true, if_false]
          push_cast
          ring

/-- Claim C1 (amended): with a fixed healthy set of distinct positively
weighted backends and all current weights starting at zero, over any N
consecutive selections each backend b is selected strictly fewer than
N·weight_b/W + 1 times (so at most the ceiling of its quota), and exactly
N·weight_b/W times when W divides N. The lower floor bound of the original
claim is refuted by wrr_floor_counterexample. -/
theorem wrr_quota_amended (bs : List Backend) (hs : String → Option Bool)
    (hnd : (bs.map Backend.url).Nodup) (hw : ∀ b ∈ bs, 1 ≤ b.weight)
    (hne : bs ≠ []) (hhs : healthyFilter bs hs = bs) (N : ℕ) :
    ∃ sels f₂, wrrRun bs hs (fun _ => 0) N = some (sels, f₂) ∧
      ∀ b ∈ bs,
        (sels.count b : ℤ) * wrrTotalWeight bs < N * b.weight + wrrTotalWeight bs ∧
        ((wrrTotalWeight bs ∣ (N : ℤ)) →
          (sels.count b : ℤ) * wrrTotalWeight bs = (N : ℤ) * b.weight) := by
  have hW1 : 1 ≤ wrrTotalWeight bs := one_le_totalWeight bs hw hne
  have hInv0 : WrrInv bs (fun _ => 0) := by
    constructor
    · simp
    · intro b hb
      show 1 - wrrTotalWeight bs ≤ 0
      omega
  obtain ⟨sels, f₂, hrun, hinv₂, hmem₂, hpt₂⟩ :=
    wrrRun_spec bs hs hnd hw hne hhs N (fun _ => 0) hInv0
  refine ⟨sels, f₂, hrun, ?_⟩
  intro b hb
  have hpt := hpt₂ b hb
  simp only [zero_add] at hpt
  constructor
  · have hlb := hinv₂.2 b hb
    rw [hpt] at hlb
    linarith
  · intro hdvd
    have hdvd_each : ∀ c ∈ bs, wrrTotalWeight bs ∣ f₂ c.url := by
      intro c hc
      rw [hpt₂ c hc]
      simp only [zero_add]
      refine dvd_sub ?_ ?_
      · exact Dvd.dvd.mul_right hdvd c.weight
      · exact Dvd.intro_left _ rfl
    have hnonneg : ∀ x ∈ bs.map (fun c => f₂ c.url), 0 ≤ x := by
      intro x hx
      obtain ⟨c, hc, rfl⟩ := List.mem_map.mp hx
      exact nonneg_of_dvd_lb _ _ hW1 (hdvd_each c hc) (hinv₂.2 c hc)
    have hzero := sum_all_zero _ hnonneg hinv₂.1 (f₂ b.url)
      (List.mem_map_of_mem _ hb)
    rw [hpt] at hzero
    linarith

/-- Counterexample for C1: weights (1,1,1,6,6), W = 15, N = 10. The quota of
the last backend is 10·6/15 = 4 exactly (floor = ceil = 4), yet the run
selects it only 3 times, so the floor/ceil bound of the claim fails. -/
theorem wrr_floor_counterexample :
    (wrrRun [⟨"a", 1⟩, ⟨"b", 1⟩, ⟨"c", 1⟩, ⟨"d", 6⟩, ⟨"e", 6⟩] (fun _ => none)
        (fun _ => 0) 10).map (fun p => p.1.count ⟨"e", 6⟩) = some 3 ∧
    wrrTotalWeight [⟨"a", 1⟩, ⟨"b", 1⟩, ⟨"c", 1⟩, ⟨"d", 6⟩, ⟨"e", 6⟩] = 15 ∧
    10 * 6 / 15 = 4 ∧ 10 * 6 % 15 = 0 ∧
    ¬(3 = 10 * 6 / 15 ∨ 3 = (10 * 6 + 15 - 1) / 15) := by
  refine ⟨by decide, by decide, by decide, by decide, by decide⟩

/-- Witness for C1 (amended) at weights (1,2), N = 3: the heavy backend is
selected exactly 2 = 3·2/3 times, within the proved quota bound. -/
theorem wrr_quota_amended_witness :
    ∃ sels f₂,
      wrrRun [⟨"a", 1⟩, ⟨"b", 2⟩] (fun _ => none) (fun _ => 0) 3 = some (sels, f₂) ∧
      (sels.count ⟨"b", 2⟩ : ℤ) * 3 < 9 ∧
      (sels.count ⟨"b", 2⟩ : ℤ) * 3 = 6 := by
  obtain ⟨sels, f₂, hrun, hall⟩ := wrr_quota_amended [⟨"a", 1⟩, ⟨"b", 2⟩] (fun _ => none)
    (by decide) (by decide) (by decide) (by decide) 3
  obtain ⟨hlt, hdvd⟩ := hall ⟨"b", 2⟩ (by decide)
  have hW : wrrTotalWeight [⟨"a", 1⟩, ⟨"b", 2⟩] = 3 := by decide
  rw [hW] at hlt hdvd
  have hd₃ : (3 : ℤ) ∣ ((3 : ℕ) : ℤ) := by norm_num
  have heq := hdvd hd₃
  dsimp only at hlt heq
  refine ⟨sels, f₂, hrun, by omega, by omega⟩

lemma getD_true_iff (o : Option Bool) : o.getD true = true ↔ o = none ∨ o = some true := by
  cases o with
  | none => simp
  | some v => cases v <;> simp

lemma wrrSelect_of_empty (f : String → ℤ) (backends : List Backend)
    (hs : String → Option Bool) (h : healthyFilter backends hs = []) :
    wrrSelect f backends hs = none := by
  simp [wrrSelect, h]

lemma wrrSelect_mem (f : String → ℤ) (backends : List Backend)
    (hs : String → Option Bool) (s : Backend) (f₂ : String → ℤ)
    (h : wrrSelect f backends hs = some (s, f₂)) :
    s ∈ healthyFilter backends hs := by
  by_cases h₁ : backends.length = 0
  · rw [wrrSelect, if_pos h₁] at h
    exact absurd h (by simp)
  by_cases h₂ : (healthyFilter backends hs).length = 0
  · rw [wrrSelect_of_empty f backends hs (List.length_eq_zero.mp h₂)] at h
    exact absurd h (by simp)
  rcases hm : (selectLoop ((healthyFilter backends hs).map
      (fun b => wrrIncWeights f (healthyFilter backends hs) b.url)) 0 (-1, none)).2 with
    _ | j
  · have hnone : wrrSelect f backends hs = none := by
      unfold wrrSelect
      rw [if_neg h₁]
      simp only [if_neg h₂, hm]
    rw [hnone] at h
    exact absurd h (by simp)
  · have hsome : wrrSelect f backends hs = some ((healthyFilter backends hs).getD j
        defaultBackend,
        updMap (wrrIncWeights f (healthyFilter backends hs))
          ((healthyFilter backends hs).getD j defaultBackend).url
          (wrrIncWeights f (healthyFilter backends hs)
              ((healthyFilter backends hs).getD j defaultBackend).url -
            wrrTotalWeight (healthyFilter backends hs))) := by
      unfold wrrSelect
      rw [if_neg h₁]
      simp only [if_neg h₂, hm]
    rw [hsome] at h
    simp only [Option.some.injEq, Prod.mk.injEq] at h
    rcases selectLoop_sel_spec _ 0 (-1) none j hm with ⟨hcon, -⟩ | ⟨t, ht, hjt, -⟩
    · exact absurd hcon (by simp)
    · have hjlen : j < (healthyFilter backends hs).length := by
        rw [hjt, Nat.zero_add]
        simpa using ht
      rw [← h.1, List.getD_eq_getElem _ defaultBackend hjlen]
      exact List.getElem_mem hjlen

lemma wrrSelect_isSome (f : String → ℤ) (backends : List Backend)
    (hs : String → Option Bool) (hne : healthyFilter backends hs ≠ [])
    (hpos : ∃ b ∈ healthyFilter backends hs,
      -1 < wrrIncWeights f (healthyFilter backends hs) b.url) :
    (wrrSelect f backends hs).isSome = true := by
  have hb : ¬backends.length = 0 := by
    intro h₁
    rw [List.length_eq_zero] at h₁
    rw [h₁] at hne
    exact hne rfl
  have hh : ¬(healthyFilter backends hs).length = 0 := by
    simpa [List.length_eq_zero] using hne
  obtain ⟨b, hbmem, hbpos⟩ := hpos
  have hsome := selectLoop_isSome ((healthyFilter backends hs).map
      (fun c => wrrIncWeights f (healthyFilter backends hs) c.url)) 0 (-1) none
    ⟨wrrIncWeights f (healthyFilter backends hs) b.url,
      List.mem_map_of_mem _ hbmem, hbpos⟩
  obtain ⟨j, hj⟩ := Option.isSome_iff_exists.mp hsome
  unfold wrrSelect
  rw [if_neg hb]
  simp only [if_neg hh, hj]
  rfl

lemma rrSelect_none_iff (counter : ℕ) (backends : List Backend)
    (hs : String → Option Bool) :
    rrSelect counter backends hs = none ↔ healthyFilter backends hs = [] := by
  constructor
  · intro h
    by_contra hne
    rw [rrSelect_eq counter backends hs hne] at h
    exact absurd h (by simp)
  · intro h
    simp [rrSelect, h]

lemma rrSelect_mem (counter : ℕ) (backends : List Backend) (hs : String → Option Bool)
    (b : Backend) (c₂ : ℕ) (h : rrSelect counter backends hs = some (b, c₂)) :
    b ∈ healthyFilter backends hs := by
  have hne : healthyFilter backends hs ≠ [] := by
    intro hcon
    rw [(rrSelect_none_iff counter backends hs).mpr hcon] at h
    exact absurd h (by simp)
  rw [rrSelect_eq counter backends hs hne] at h
  simp only [Option.some.injEq, Prod.mk.injEq] at h
  have hk : 0 < (healthyFilter backends hs).length := List.length_pos.mpr hne
  have hidx : counter % (healthyFilter backends hs).length <
      (healthyFilter backends hs).length := Nat.mod_lt _ hk
  rw [← h.1, List.getD_eq_getElem _ defaultBackend hidx]
  exact List.getElem_mem hidx

lemma lcSelect_eval (conns : String → ℤ) (backends : List Backend)
    (hs : String → Option Bool) (hb : ¬backends.length = 0)
    (hh : ¬(healthyFilter backends hs).length = 0) :
    lcSelect conns backends hs =
      match (lcSelectLoop conns (healthyFilter backends hs) (-1, none)).2 with
      | none => none
      | some b => some b := by
  unfold lcSelect
  rw [if_neg hb]
  simp only [if_neg hh]

lemma lcSelect_none_iff (conns : String → ℤ) (backends : List Backend)
    (hs : String → Option Bool) :
    lcSelect conns backends hs = none ↔ healthyFilter backends hs = [] := by
  constructor
  · intro h
    by_contra hne
    have hb : ¬backends.length = 0 := by
      intro h₁
      rw [List.length_eq_zero] at h₁
      rw [h₁] at hne
      exact hne rfl
    have hh : ¬(healthyFilter backends hs).length = 0 := by
      simpa [List.length_eq_zero] using hne
    obtain ⟨b, hb₂⟩ := Option.isSome_iff_exists.mp
      (lcSelectLoop_isSome conns (healthyFilter backends hs) hne)
    rw [lcSelect_eval conns backends hs hb hh] at h
    simp only [hb₂] at h
    exact absurd h (by simp)
  · intro h
    simp [lcSelect, h]

lemma lcSelect_mem (conns : String → ℤ) (backends : List Backend)
    (hs : String → Option Bool) (b : Backend) (h : lcSelect conns backends hs = some b) :
    b ∈ healthyFilter backends hs := by
  have hne : healthyFilter backends hs ≠ [] := by
    intro hcon
    rw [(lcSelect_none_iff conns backends hs).mpr hcon] at h
    exact absurd h (by simp)
  have hb : ¬backends.length = 0 := by
    intro h₁
    rw [List.length_eq_zero] at h₁
    rw [h₁] at hne
    exact hne rfl
  have hh : ¬(healthyFilter backends hs).length = 0 := by
    simpa [List.length_eq_zero] using hne
  rw [lcSelect_eval conns backends hs hb hh] at h
  rcases hm : (lcSelectLoop conns (healthyFilter backends hs) (-1, none)).2 with _ | c
  · rw [hm] at h
    exact absurd h (by simp)
  · rw [hm] at h
    simp only [Option.some.injEq] at h
    rcases lcSelectLoop_mem conns (healthyFilter backends hs) (-1, none) c hm with
      hcon | hmem
    · exact absurd hcon (by simp)
    · exact h ▸ hmem

/-- Claim C4 (amended): each policy considers exactly the backends whose
snapshot entry is true or absent. Round robin and least connections fail with
NoHealthyBackends exactly when that filtered set is empty and otherwise return
a member of it. The weighted policy fails on an empty filtered set and only
returns members, but with a nonempty filtered set it is guaranteed a selection
only when some incremented current weight exceeds -1 (always true from the
all-zero state); otherwise it can fail despite healthy backends, refuted
concretely by wrr_nonempty_error_counterexample. -/
theorem select_backend_filter_amended (counter : ℕ) (conns : String → ℤ)
    (f : String → ℤ) (backends : List Backend) (hs : String → Option Bool) :
    (∀ b, b ∈ healthyFilter backends hs ↔
        b ∈ backends ∧ (hs b.url = none ∨ hs b.url = some true)) ∧
    (rrSelect counter backends hs = none ↔ healthyFilter backends hs = []) ∧
    (∀ b c₂, rrSelect counter backends hs = some (b, c₂) →
      b ∈ healthyFilter backends hs) ∧
    (lcSelect conns backends hs = none ↔ healthyFilter backends hs = []) ∧
    (∀ b, lcSelect conns backends hs = some b → b ∈ healthyFilter backends hs) ∧
    (healthyFilter backends hs = [] → wrrSelect f backends hs = none) ∧
    (∀ s f₂, wrrSelect f backends hs = some (s, f₂) → s ∈ healthyFilter backends hs) ∧
    ((healthyFilter backends hs ≠ [] ∧ ∃ b ∈ healthyFilter backends hs,
        -1 < wrrIncWeights f (healthyFilter backends hs) b.url) →
      (wrrSelect f backends hs).isSome = true) := by
  have hfilter : ∀ b, b ∈ healthyFilter backends hs ↔
      b ∈ backends ∧ (hs b.url = none ∨ hs b.url = some true) := by
    intro b
    unfold healthyFilter
    rw [List.mem_filter, getD_true_iff]
  exact ⟨hfilter, rrSelect_none_iff counter backends hs,
    fun b c₂ => rrSelect_mem counter backends hs b c₂,
    lcSelect_none_iff conns backends hs,
    fun b => lcSelect_mem conns backends hs b,
    wrrSelect_of_empty f backends hs,
    wrrSelect_mem f backends hs,
    fun h => wrrSelect_isSome f backends hs h.1 h.2⟩

/-- Counterexample for C4: backends x (weight 1) and y (weight 10). After six
calls with both healthy, x's current weight is -5; a seventh call with y
unhealthy filters to the nonempty healthy set [x], yet the weighted policy
returns NoHealthyBackends because x's incremented current weight -4 never
exceeds the scan's initial maxWeight of -1. -/
theorem wrr_nonempty_error_counterexample :
    (wrrRun [⟨"x", 1⟩, ⟨"y", 10⟩] (fun _ => none) (fun _ => 0) 6).isSome = true ∧
    ((wrrRun [⟨"x", 1⟩, ⟨"y", 10⟩] (fun _ => none) (fun _ => 0) 6).bind
        (fun p => wrrSelect p.2 [⟨"x", 1⟩, ⟨"y", 10⟩]
          (fun u => if u = "y" then some false else none))).isNone = true ∧
    healthyFilter [⟨"x", 1⟩, ⟨"y", 10⟩] (fun u => if u = "y" then some false else none) =
      [⟨"x", 1⟩] := by
  refine ⟨by decide, by decide, by decide⟩

/-- Witness for C4 (amended): a single healthy backend with fresh state is
selected by both the round-robin and the weighted policy. -/
theorem select_backend_filter_amended_witness :
    rrSelect 0 [⟨"a", 1⟩] (fun _ => none) ≠ none ∧
    (wrrSelect (fun _ => 0) [⟨"a", 1⟩] (fun _ => none)).isSome = true := by
  obtain ⟨-, hrr, -, -, -, -, -, hwrr⟩ :=
    select_backend_filter_amended 0 (fun _ => 0) (fun _ => 0) [⟨"a", 1⟩] (fun _ => none)
  constructor
  · intro h
    exact absurd (hrr.mp h) (by decide)
  · exact hwrr ⟨by decide, ⟨"a", 1⟩, by decide, by decide⟩

end IsameLB
